import Mathlib

/-!
Shallow embedding of the speech-balloon worker repository:
`shared_logic.py` (mask validity classifier and batch processing) and
`worker.py` (worker control loop).

Conventions of the embedding:
* a binary segmentation mask (a numpy uint8 grid of 0/1 values) is a
  `List (List Bool)`;
* Python floats (filter thresholds, normalized coordinates) are modelled
  by exact rationals `ℚ`;
* calls into external libraries (cv2 contour extraction, contour area,
  convex hull, image decoding, the SAM segmentation model, overlay
  rendering/JPEG encoding) are oracle parameters: the theorems hold for
  every behaviour of those collaborators;
* fallible code (a Python exception) is `Option`.
-/

namespace BalloonWorker

/-- A binary mask: rows of booleans (`true` = masked pixel, value 1). -/
abbrev Mask := List (List Bool)

/-- The `BALLOON_FILTER_PARAMS` configuration dictionary of
`shared_logic._is_mask_valid`: five named numeric thresholds. -/
structure FilterParams where
  min_area_ratio : ℚ
  max_area_ratio : ℚ
  min_aspect_ratio : ℚ
  max_aspect_ratio : ℚ
  border_margin : ℚ
  min_avg_color : ℚ
  min_solidity : ℚ
  deriving DecidableEq

/-- `np.sum(mask_np)`: the total masked pixel count (entries are 0/1, so the
sum is the number of `true` cells). -/
def maskArea (m : Mask) : ℕ :=
  (m.map (fun row => row.count true)).sum

/-- Coordinates `(row, col)` of all masked pixels of `m`. -/
def maskCoords (m : Mask) : List (ℕ × ℕ) :=
  (List.range m.length).flatMap (fun r =>
    ((List.range (m.getD r []).length).filter
      (fun c => (m.getD r []).getD c false)).map (fun c => (r, c)))

/-- Minimum of a list of naturals (0 on the empty list). -/
def natMinL : List ℕ → ℕ
  | [] => 0
  | a :: l => l.foldl Nat.min a

/-- Maximum of a list of naturals (0 on the empty list). -/
def natMaxL : List ℕ → ℕ
  | [] => 0
  | a :: l => l.foldl Nat.max a

/-- An axis-aligned bounding rectangle, as returned by `cv2.boundingRect`. -/
structure Rect where
  x : ℕ
  y : ℕ
  w : ℕ
  h : ℕ
  deriving DecidableEq

/-- `cv2.boundingRect(mask_np)` on a binary mask: the minimal up-right
rectangle containing all nonzero pixels; `(0,0,0,0)` when the mask is empty.
`x` is the least column, `y` the least row, and width/height span to the
greatest column/row inclusively. -/
def boundingRect (m : Mask) : Rect :=
  let cs := maskCoords m
  if cs = [] then ⟨0, 0, 0, 0⟩
  else
    let rws := cs.map Prod.fst
    let cls := cs.map Prod.snd
    ⟨natMinL cls, natMinL rws,
      natMaxL cls - natMinL cls + 1, natMaxL rws - natMinL rws + 1⟩

/-- `cv2.mean(img_gray, mask=mask_np)[0]`: the mean gray intensity over the
masked pixels (0 when the mask is empty, matching cv2). -/
def meanGray (gray : List (List ℕ)) (m : Mask) : ℚ :=
  let cs := maskCoords m
  ((cs.map (fun rc => ((gray.getD rc.1 []).getD rc.2 0 : ℚ))).sum) / cs.length

/-- Python `max(l, key=key)`: the first element attaining the maximal key
(`max` replaces its current best only on a strictly greater key), `none` on
the empty list (where Python raises). -/
def pyMax {α : Type} (key : α → ℚ) : List α → Option α
  | [] => none
  | c :: cs => some (cs.foldl (fun best x => if key best < key x then x else best) c)

/-- Oracle interface for the cv2 contour geometry used by filter 5 of
`_is_mask_valid`: `cv2.findContours`, `cv2.contourArea`, `cv2.convexHull`.
`C` is the (abstract) type of contours. -/
structure Geom (C : Type) where
  findContours : Mask → List C
  contourArea : C → ℚ
  convexHull : C → C

/-- Filter 1 condition of `_is_mask_valid`: the masked pixel count lies
strictly between `min_area_ratio * img_area` and `max_area_ratio * img_area`. -/
abbrev areaFilterOk (p : FilterParams) (imgH imgW : ℕ) (m : Mask) : Prop :=
  p.min_area_ratio * ((imgH : ℚ) * (imgW : ℚ)) < (maskArea m : ℚ) ∧
  (maskArea m : ℚ) < p.max_area_ratio * ((imgH : ℚ) * (imgW : ℚ))

/-- Filter 2 condition: `w / h` lies strictly between the configured aspect
ratio bounds. -/
abbrev aspectFilterOk (p : FilterParams) (m : Mask) : Prop :=
  p.min_aspect_ratio < ((boundingRect m).w : ℚ) / ((boundingRect m).h : ℚ) ∧
  ((boundingRect m).w : ℚ) / ((boundingRect m).h : ℚ) < p.max_aspect_ratio

/-- Filter 3 condition (rejection): the bounding box touches or crosses
within `border_margin` pixels of an image edge. -/
abbrev borderHit (p : FilterParams) (imgH imgW : ℕ) (m : Mask) : Prop :=
  ((boundingRect m).x : ℚ) < p.border_margin ∨
  ((boundingRect m).y : ℚ) < p.border_margin ∨
  ((boundingRect m).x : ℚ) + ((boundingRect m).w : ℚ) > (imgW : ℚ) - p.border_margin ∨
  ((boundingRect m).y : ℚ) + ((boundingRect m).h : ℚ) > (imgH : ℚ) - p.border_margin

/-- Filter 5 of `_is_mask_valid` (lines 50-69): find the contours, take the
largest by area (Python `max` keeps the first on ties), reject on zero
contour or hull area, otherwise reject when `contour_area / hull_area`
is below `min_solidity`. -/
def solidityCheck {C : Type} (geom : Geom C) (p : FilterParams) (m : Mask) : Bool :=
  match pyMax geom.contourArea (geom.findContours m) with
  | none => false
  | some c =>
    if geom.contourArea c = 0 then false
    else if geom.contourArea (geom.convexHull c) = 0 then false
    else if geom.contourArea c / geom.contourArea (geom.convexHull c) < p.min_solidity then
      false
    else true

/-- `shared_logic._is_mask_valid(mask_np, img_shape, img_gray, filter_params)`:
the five sequential filters. The spec calls this `classify`. -/
def classify {C : Type} (geom : Geom C) (p : FilterParams) (imgH imgW : ℕ)
    (gray : List (List ℕ)) (m : Mask) : Bool :=
  -- 1. area filter
  if ¬ areaFilterOk p imgH imgW m then false
  -- 2. bounding box and aspect ratio
  else if (boundingRect m).h = 0 then false
  else if ¬ aspectFilterOk p m then false
  -- 3. border margin filter
  else if borderHit p imgH imgW m then false
  -- 4. mean color (brightness) filter
  else if meanGray gray m < p.min_avg_color then false
  -- 5. solidity filter
  else solidityCheck geom p m

/-! ### Basic facts about mask coordinates and the bounding rectangle -/

theorem mem_maskCoords {m : Mask} {r c : ℕ} :
    (r, c) ∈ maskCoords m ↔
      r < m.length ∧ c < (m.getD r []).length ∧ (m.getD r []).getD c false = true := by
  simp only [maskCoords, List.mem_flatMap, List.mem_map, List.mem_filter, List.mem_range]
  constructor
  · rintro ⟨r2, hr2, c2, ⟨hc2, hget⟩, heq⟩
    cases heq
    exact ⟨hr2, hc2, hget⟩
  · rintro ⟨hr, hc, hget⟩
    exact ⟨r, hr, c, ⟨hc, hget⟩, rfl⟩

theorem maskArea_eq_zero_iff {m : Mask} : maskArea m = 0 ↔ maskCoords m = [] := by
  unfold maskArea
  rw [List.sum_eq_zero_iff, List.eq_nil_iff_forall_not_mem]
  constructor
  · intro h p hp
    obtain ⟨r, c⟩ := p
    rw [mem_maskCoords] at hp
    obtain ⟨hr, hc, hget⟩ := hp
    have hrow : (m.getD r []).count true = 0 := by
      apply h
      refine List.mem_map.mpr ⟨m.getD r [], ?_, rfl⟩
      rw [List.getD_eq_getElem m [] hr]
      exact List.getElem_mem hr
    have htrue : true ∈ m.getD r [] := by
      rw [List.getD_eq_getElem _ false hc] at hget
      rw [← hget]
      exact List.getElem_mem hc
    rw [List.count_eq_zero] at hrow
    exact hrow htrue
  · intro h n hn
    rcases List.mem_map.mp hn with ⟨row, hrow, rfl⟩
    rw [List.count_eq_zero]
    intro htrue
    rcases List.mem_iff_getElem.mp hrow with ⟨r, hr, hrowr⟩
    rcases List.mem_iff_getElem.mp htrue with ⟨c, hc, hrc⟩
    refine h (r, c) (mem_maskCoords.mpr ⟨hr, ?_, ?_⟩)
    · rw [List.getD_eq_getElem m [] hr, hrowr]
      exact hc
    · rw [List.getD_eq_getElem m [] hr, hrowr, List.getD_eq_getElem _ false hc]
      exact hrc

theorem foldl_min_le_init (l : List ℕ) : ∀ a, l.foldl Nat.min a ≤ a := by
  induction l with
  | nil => intro a; exact le_refl a
  | cons x xs ih =>
    intro a
    exact le_trans (ih (Nat.min a x)) (Nat.min_le_left a x)

theorem foldl_min_le_mem (l : List ℕ) : ∀ a b, b ∈ l → l.foldl Nat.min a ≤ b := by
  induction l with
  | nil => intro a b hb; cases hb
  | cons x xs ih =>
    intro a b hb
    rcases List.mem_cons.mp hb with h | h
    · subst h
      exact le_trans (foldl_min_le_init xs _) (Nat.min_le_right a b)
    · exact ih _ b h

theorem foldl_min_mem (l : List ℕ) : ∀ a, l.foldl Nat.min a = a ∨ l.foldl Nat.min a ∈ l := by
  induction l with
  | nil => intro a; exact Or.inl rfl
  | cons x xs ih =>
    intro a
    simp only [List.foldl_cons]
    rcases ih (Nat.min a x) with h | h
    · rcases Nat.le_total a x with hax | hxa
      · left; rw [h]; exact min_eq_left hax
      · right
        rw [h]
        have hx : Nat.min a x = x := min_eq_right hxa
        rw [hx]
        exact List.mem_cons_self x xs
    · right; exact List.mem_cons_of_mem x h

theorem foldl_max_init_le (l : List ℕ) : ∀ a, a ≤ l.foldl Nat.max a := by
  induction l with
  | nil => intro a; exact le_refl a
  | cons x xs ih =>
    intro a
    exact le_trans (Nat.le_max_left a x) (ih (Nat.max a x))

theorem foldl_max_mem_le (l : List ℕ) : ∀ a b, b ∈ l → b ≤ l.foldl Nat.max a := by
  induction l with
  | nil => intro a b hb; cases hb
  | cons x xs ih =>
    intro a b hb
    rcases List.mem_cons.mp hb with h | h
    · subst h
      exact le_trans (Nat.le_max_right a b) (foldl_max_init_le xs _)
    · exact ih _ b h

theorem foldl_max_mem (l : List ℕ) : ∀ a, l.foldl Nat.max a = a ∨ l.foldl Nat.max a ∈ l := by
  induction l with
  | nil => intro a; exact Or.inl rfl
  | cons x xs ih =>
    intro a
    simp only [List.foldl_cons]
    rcases ih (Nat.max a x) with h | h
    · rcases Nat.le_total a x with hax | hxa
      · right
        rw [h]
        have hx : Nat.max a x = x := max_eq_right hax
        rw [hx]
        exact List.mem_cons_self x xs
      · left; rw [h]; exact max_eq_left hxa
    · right; exact List.mem_cons_of_mem x h

theorem natMinL_le_of_mem {l : List ℕ} {b : ℕ} (hb : b ∈ l) : natMinL l ≤ b := by
  cases l with
  | nil => cases hb
  | cons a t =>
    rcases List.mem_cons.mp hb with h | h
    · subst h; exact foldl_min_le_init t b
    · exact foldl_min_le_mem t a b h

theorem natMinL_mem {l : List ℕ} (h : l ≠ []) : natMinL l ∈ l := by
  cases l with
  | nil => exact absurd rfl h
  | cons a t =>
    rcases foldl_min_mem t a with h2 | h2
    · rw [natMinL, h2]; exact List.mem_cons_self a t
    · exact List.mem_cons_of_mem a (by rw [natMinL]; exact h2)

theorem le_natMaxL_of_mem {l : List ℕ} {b : ℕ} (hb : b ∈ l) : b ≤ natMaxL l := by
  cases l with
  | nil => cases hb
  | cons a t =>
    rcases List.mem_cons.mp hb with h | h
    · subst h; exact foldl_max_init_le t b
    · exact foldl_max_mem_le t a b h

theorem natMaxL_mem {l : List ℕ} (h : l ≠ []) : natMaxL l ∈ l := by
  cases l with
  | nil => exact absurd rfl h
  | cons a t =>
    rcases foldl_max_mem t a with h2 | h2
    · rw [natMaxL, h2]; exact List.mem_cons_self a t
    · exact List.mem_cons_of_mem a (by rw [natMaxL]; exact h2)

theorem boundingRect_eq_of_ne {m : Mask} (h : maskCoords m ≠ []) :
    boundingRect m =
      ⟨natMinL ((maskCoords m).map Prod.snd), natMinL ((maskCoords m).map Prod.fst),
        natMaxL ((maskCoords m).map Prod.snd) - natMinL ((maskCoords m).map Prod.snd) + 1,
        natMaxL ((maskCoords m).map Prod.fst) - natMinL ((maskCoords m).map Prod.fst) + 1⟩ := by
  simp [boundingRect, h]

theorem boundingRect_h_eq_zero_iff {m : Mask} :
    (boundingRect m).h = 0 ↔ maskCoords m = [] := by
  by_cases h : maskCoords m = []
  · simp [boundingRect, h]
  · rw [boundingRect_eq_of_ne h]
    simp [h]

/-! ### Characterization of the classifier as a conjunction of conditions -/

/-- The solidity filter passes: there is a first-maximal contour with nonzero
area whose convex hull has nonzero area, and the solidity reaches
`min_solidity`. -/
def solidityOk {C : Type} (geom : Geom C) (p : FilterParams) (m : Mask) : Prop :=
  ∃ c, pyMax geom.contourArea (geom.findContours m) = some c ∧
    geom.contourArea c ≠ 0 ∧ geom.contourArea (geom.convexHull c) ≠ 0 ∧
    ¬ (geom.contourArea c / geom.contourArea (geom.convexHull c) < p.min_solidity)

theorem solidityCheck_eq_true_iff {C : Type} (geom : Geom C) (p : FilterParams) (m : Mask) :
    solidityCheck geom p m = true ↔ solidityOk geom p m := by
  unfold solidityCheck solidityOk
  cases hp : pyMax geom.contourArea (geom.findContours m) with
  | none => simp
  | some c =>
    dsimp only
    split_ifs with h1 h2 h3 <;> simp_all

theorem classify_eq_true_iff {C : Type} (geom : Geom C) (p : FilterParams)
    (imgH imgW : ℕ) (gray : List (List ℕ)) (m : Mask) :
    classify geom p imgH imgW gray m = true ↔
      areaFilterOk p imgH imgW m ∧ (boundingRect m).h ≠ 0 ∧ aspectFilterOk p m ∧
      ¬ borderHit p imgH imgW m ∧ ¬ (meanGray gray m < p.min_avg_color) ∧
      solidityOk geom p m := by
  unfold classify
  split_ifs with h1 h2 h3 h4 h5 <;>
    (try simp only [Bool.false_eq_true, false_iff, solidityCheck_eq_true_iff]) <;> tauto

/-! ### Python max: the first element attaining the maximal key -/

theorem pyFold_spec {α : Type} (key : α → ℚ) :
    ∀ (l : List α) (a : α),
      (∀ b ∈ a :: l,
        key b ≤ key (l.foldl (fun best x => if key best < key x then x else best) a)) ∧
      ∃ l1 l2, a :: l = l1 ++ (l.foldl (fun best x => if key best < key x then x else best) a) :: l2 ∧
        ∀ b ∈ l1, key b < key (l.foldl (fun best x => if key best < key x then x else best) a) := by
  intro l
  induction l with
  | nil =>
    intro a
    refine ⟨?_, [], [], by simp, by simp⟩
    intro b hb
    rcases List.mem_cons.mp hb with h | h
    · subst h; exact le_refl _
    · cases h
  | cons x xs ih =>
    intro a
    simp only [List.foldl_cons]
    by_cases hax : key a < key x
    · rw [if_pos hax]
      obtain ⟨hmax, l1, l2, hsplit, hpre⟩ := ih x
      have hxle : key x ≤ key (xs.foldl (fun best y => if key best < key y then y else best) x) :=
        hmax x (List.mem_cons_self x xs)
      constructor
      · intro b hb
        rcases List.mem_cons.mp hb with h | h
        · subst h; exact le_of_lt (lt_of_lt_of_le hax hxle)
        · exact hmax b h
      · refine ⟨a :: l1, l2, ?_, ?_⟩
        · rw [List.cons_append, ← hsplit]
        · intro b hb
          rcases List.mem_cons.mp hb with h | h
          · subst h; exact lt_of_lt_of_le hax hxle
          · exact hpre b h
    · rw [if_neg hax]
      obtain ⟨hmax, l1, l2, hsplit, hpre⟩ := ih a
      have hale : key a ≤ key (xs.foldl (fun best y => if key best < key y then y else best) a) :=
        hmax a (List.mem_cons_self a xs)
      have hxle2 : key x ≤ key (xs.foldl (fun best y => if key best < key y then y else best) a) :=
        le_trans (le_of_not_lt hax) hale
      constructor
      · intro b hb
        rcases List.mem_cons.mp hb with h | h
        · subst h; exact hale
        · rcases List.mem_cons.mp h with h2 | h2
          · subst h2; exact hxle2
          · exact hmax b (List.mem_cons_of_mem a h2)
      · cases l1 with
        | nil =>
          simp only [List.nil_append] at hsplit
          injection hsplit with hma hl2
          refine ⟨[], x :: xs, ?_, by simp⟩
          rw [List.nil_append, ← hma]
        | cons a0 l1t =>
          rw [List.cons_append] at hsplit
          injection hsplit with ha0 hxs
          have hamem : key a < key (xs.foldl (fun best y => if key best < key y then y else best) a) := by
            have h3 := hpre a0 (List.mem_cons_self a0 l1t)
            rw [← ha0] at h3
            exact h3
          refine ⟨a :: x :: l1t, l2, ?_, ?_⟩
          · rw [List.cons_append, List.cons_append, ← hxs]
          · intro b hb
            rcases List.mem_cons.mp hb with h | h
            · subst h; exact hamem
            · rcases List.mem_cons.mp h with h2 | h2
              · subst h2; exact lt_of_le_of_lt (le_of_not_lt hax) hamem
              · exact hpre b (List.mem_cons_of_mem a0 h2)

theorem pyMax_spec {α : Type} (key : α → ℚ) (l : List α) (c : α)
    (h : pyMax key l = some c) :
    (∃ l1 l2, l = l1 ++ c :: l2 ∧ ∀ b ∈ l1, key b < key c) ∧
    ∀ b ∈ l, key b ≤ key c := by
  cases l with
  | nil => cases h
  | cons a t =>
    have hc : t.foldl (fun best x => if key best < key x then x else best) a = c := by
      simpa [pyMax] using h
    obtain ⟨hmax, l1, l2, hsplit, hpre⟩ := pyFold_spec key t a
    rw [hc] at hmax hsplit hpre
    exact ⟨⟨l1, l2, hsplit, hpre⟩, hmax⟩

theorem classify_eq_false_iff {C : Type} (geom : Geom C) (p : FilterParams)
    (imgH imgW : ℕ) (gray : List (List ℕ)) (m : Mask) :
    classify geom p imgH imgW gray m = false ↔
      ¬ (areaFilterOk p imgH imgW m ∧ (boundingRect m).h ≠ 0 ∧ aspectFilterOk p m ∧
        ¬ borderHit p imgH imgW m ∧ ¬ (meanGray gray m < p.min_avg_color) ∧
        solidityOk geom p m) := by
  rw [Bool.eq_false_iff, Ne, classify_eq_true_iff]

/-! ### Concrete instances used by witnesses and counterexamples -/

/-- Contour geometry oracle instance: one contour of area 4 that is its own
convex hull (a perfectly convex region). -/
def geomC : Geom Unit :=
  ⟨fun _ => [()], fun _ => 4, fun c => c⟩

/-- Permissive thresholds under which `maskC` is accepted. -/
def paramsC : FilterParams :=
  ⟨1/100, 1/2, 1/2, 2, 1, 100, 1/2⟩

/-- A uniform 10 x 10 gray image of intensity 200. -/
def grayC : List (List ℕ) := List.replicate 10 (List.replicate 10 200)

/-- A row of ten unmasked pixels. -/
def offRow : List Bool := List.replicate 10 false

/-- A row masking columns 4 and 5 out of ten. -/
def onRow : List Bool :=
  [false, false, false, false, true, true, false, false, false, false]

/-- A 2 x 2 masked block centered in a 10 x 10 image (bounding box (4,4,2,2)). -/
def maskC : Mask :=
  [offRow, offRow, offRow, offRow, onRow, onRow, offRow, offRow, offRow, offRow]

/-- An empty 10 x 10 mask. -/
def maskE : Mask := List.replicate 10 offRow

/-- A row masking columns 0 and 1 out of ten. -/
def onRow0 : List Bool :=
  [true, true, false, false, false, false, false, false, false, false]

/-- A 2 x 2 masked block touching the top-left image corner. -/
def maskB : Mask :=
  [onRow0, onRow0, offRow, offRow, offRow, offRow, offRow, offRow, offRow, offRow]

/-! ### Claims about the classifier -/

/-- C1: for every mask, image and params, `classify` returns false whenever the
total masked pixel count does not lie strictly between
`min_area_ratio * image_area` and `max_area_ratio * image_area`; and for every
mask with zero area, `classify` returns false (if such a mask even survives the
area filter, its bounding box has height 0 and filter 2 rejects it). -/
theorem classify_area_filter {C : Type} (geom : Geom C) (p : FilterParams)
    (imgH imgW : ℕ) (gray : List (List ℕ)) (m : Mask) :
    (¬ areaFilterOk p imgH imgW m → classify geom p imgH imgW gray m = false) ∧
    (maskArea m = 0 → classify geom p imgH imgW gray m = false) := by
  constructor
  · intro hnot
    rw [classify_eq_false_iff]
    intro hall
    exact hnot hall.1
  · intro hzero
    rw [classify_eq_false_iff]
    intro hall
    exact hall.2.1 (boundingRect_h_eq_zero_iff.mpr (maskArea_eq_zero_iff.mp hzero))

theorem classify_area_filter_witness :
    maskArea maskE = 0 ∧ classify geomC paramsC 10 10 grayC maskE = false :=
  ⟨by decide, (classify_area_filter geomC paramsC 10 10 grayC maskE).2 (by decide)⟩

/-- C2: whenever the bounding box of the mask touches or crosses within
`border_margin` pixels of any of the four image edges, `classify` returns
false — with no further assumption, so in particular regardless of whether the
area or aspect-ratio filters would pass. -/
theorem classify_border_filter {C : Type} (geom : Geom C) (p : FilterParams)
    (imgH imgW : ℕ) (gray : List (List ℕ)) (m : Mask)
    (hb : borderHit p imgH imgW m) :
    classify geom p imgH imgW gray m = false := by
  rw [classify_eq_false_iff]
  intro hall
  exact hall.2.2.2.1 hb

theorem classify_border_filter_witness :
    borderHit paramsC 10 10 maskB ∧ classify geomC paramsC 10 10 grayC maskB = false :=
  ⟨by decide, classify_border_filter geomC paramsC 10 10 grayC maskB (by decide)⟩

/-- C3: for every mask whose bounding box has height 0, `classify` returns
false, and it does so for every brightness grid and every contour-geometry
oracle — the later filters (border, brightness, solidity) cannot influence the
result, and in the embedding the `h = 0` branch returns before the `w / h`
division term is formed, mirroring the early `return False` of the source. -/
theorem classify_zero_height {C : Type} (p : FilterParams) (imgH imgW : ℕ) (m : Mask)
    (hh : (boundingRect m).h = 0) :
    ∀ (geom : Geom C) (gray : List (List ℕ)),
      classify geom p imgH imgW gray m = false := by
  intro geom gray
  rw [classify_eq_false_iff]
  intro hall
  exact hall.2.1 hh

theorem classify_zero_height_witness :
    (boundingRect maskE).h = 0 ∧ classify geomC paramsC 10 10 grayC maskE = false :=
  ⟨by decide, classify_zero_height paramsC 10 10 maskE (by decide) geomC grayC⟩

/-- The conjunction of filters 1 to 4: everything the source checks before the
solidity filter. -/
abbrev preSolidityOk (p : FilterParams) (imgH imgW : ℕ) (gray : List (List ℕ))
    (m : Mask) : Prop :=
  areaFilterOk p imgH imgW m ∧ (boundingRect m).h ≠ 0 ∧ aspectFilterOk p m ∧
  ¬ borderHit p imgH imgW m ∧ ¬ (meanGray gray m < p.min_avg_color)

/-- C4 (amended): the solidity filter selects the single largest-area contour
with ties broken by discovery order (the selected contour is the first one
attaining the maximal area), rejects whenever the selected contour or its hull
has zero area, and otherwise rejects exactly when
`contour_area / hull_area < min_solidity`; a perfectly convex contour
(hull area equal to contour area, solidity 1.0) passes this filter given the
earlier filters pass, provided `min_solidity ≤ 1`. -/
theorem solidity_filter_spec {C : Type} (geom : Geom C) (p : FilterParams)
    (imgH imgW : ℕ) (gray : List (List ℕ)) (m : Mask) :
    (∀ c, pyMax geom.contourArea (geom.findContours m) = some c →
      (∃ l1 l2, geom.findContours m = l1 ++ c :: l2 ∧
        ∀ b ∈ l1, geom.contourArea b < geom.contourArea c) ∧
      ∀ b ∈ geom.findContours m, geom.contourArea b ≤ geom.contourArea c) ∧
    (∀ c, pyMax geom.contourArea (geom.findContours m) = some c →
      (geom.contourArea c = 0 ∨ geom.contourArea (geom.convexHull c) = 0) →
      classify geom p imgH imgW gray m = false) ∧
    (∀ c, preSolidityOk p imgH imgW gray m →
      pyMax geom.contourArea (geom.findContours m) = some c →
      geom.contourArea c ≠ 0 → geom.contourArea (geom.convexHull c) ≠ 0 →
      (classify geom p imgH imgW gray m = true ↔
        ¬ (geom.contourArea c / geom.contourArea (geom.convexHull c) < p.min_solidity))) ∧
    (∀ c, p.min_solidity ≤ 1 → preSolidityOk p imgH imgW gray m →
      pyMax geom.contourArea (geom.findContours m) = some c →
      geom.contourArea (geom.convexHull c) = geom.contourArea c →
      geom.contourArea c ≠ 0 →
      classify geom p imgH imgW gray m = true) := by
  refine ⟨?_, ?_, ?_, ?_⟩
  · intro c hc
    exact pyMax_spec geom.contourArea (geom.findContours m) c hc
  · intro c hc hzero
    rw [classify_eq_false_iff]
    rintro ⟨-, -, -, -, -, c2, hc2, hc2a, hc2h, -⟩
    rw [hc] at hc2
    injection hc2 with he
    subst he
    rcases hzero with h | h
    · exact hc2a h
    · exact hc2h h
  · intro c hpre hc hca hch
    rw [classify_eq_true_iff]
    constructor
    · rintro ⟨-, -, -, -, -, c2, hc2, -, -, hsol⟩
      rw [hc] at hc2
      injection hc2 with he
      subst he
      exact hsol
    · intro hsol
      exact ⟨hpre.1, hpre.2.1, hpre.2.2.1, hpre.2.2.2.1, hpre.2.2.2.2,
        c, hc, hca, hch, hsol⟩
  · intro c hmin hpre hc hhull hca
    rw [classify_eq_true_iff]
    refine ⟨hpre.1, hpre.2.1, hpre.2.2.1, hpre.2.2.2.1, hpre.2.2.2.2,
      c, hc, hca, ?_, ?_⟩
    · rw [hhull]; exact hca
    · rw [hhull, div_self hca]
      exact not_lt.mpr hmin

theorem meanGray_grayC_maskC : meanGray grayC maskC = 200 := by
  have hco : maskCoords maskC = [(4, 4), (4, 5), (5, 4), (5, 5)] := by decide
  have hvals : (maskCoords maskC).map
      (fun rc => (grayC.getD rc.1 []).getD rc.2 0) = [200, 200, 200, 200] := by decide
  simp only [meanGray]
  rw [show (fun rc : ℕ × ℕ => (((grayC.getD rc.1 []).getD rc.2 0 : ℕ) : ℚ)) =
      (fun n : ℕ => (n : ℚ)) ∘ (fun rc : ℕ × ℕ => (grayC.getD rc.1 []).getD rc.2 0) from rfl,
    ← List.map_map, hvals, hco]
  norm_num

theorem boundingRect_maskC : boundingRect maskC = ⟨4, 4, 2, 2⟩ := by decide

theorem maskArea_maskC : maskArea maskC = 4 := by decide

theorem preSolidityOk_paramsC_maskC : preSolidityOk paramsC 10 10 grayC maskC := by
  refine ⟨⟨?_, ?_⟩, ?_, ⟨?_, ?_⟩, ?_, ?_⟩
  · rw [maskArea_maskC]; norm_num [paramsC]
  · rw [maskArea_maskC]; norm_num [paramsC]
  · rw [boundingRect_maskC]; decide
  · rw [boundingRect_maskC]; norm_num [paramsC]
  · rw [boundingRect_maskC]; norm_num [paramsC]
  · simp only [borderHit, boundingRect_maskC]; norm_num [paramsC]
  · rw [meanGray_grayC_maskC]; norm_num [paramsC]

theorem solidity_filter_spec_witness :
    classify geomC paramsC 10 10 grayC maskC = true :=
  (solidity_filter_spec geomC paramsC 10 10 grayC maskC).2.2.2 ()
    (by norm_num [paramsC]) preSolidityOk_paramsC_maskC (by decide) (by decide) (by decide)

/-- Thresholds identical to `paramsC` except `min_solidity = 2`. -/
def paramsC4 : FilterParams :=
  ⟨1/100, 1/2, 1/2, 2, 1, 100, 2⟩

/-- C4 counterexample: with `min_solidity = 2`, the mask `maskC` passes every
filter before solidity, its single contour is perfectly convex (hull area
equal to contour area, both nonzero, solidity 1.0), yet `classify` returns
false — so the claim that a perfectly convex region always passes the solidity
filter given the earlier filters pass is false as stated. -/
theorem solidity_convex_cex :
    preSolidityOk paramsC4 10 10 grayC maskC ∧
    pyMax geomC.contourArea (geomC.findContours maskC) = some () ∧
    geomC.contourArea (geomC.convexHull ()) = geomC.contourArea () ∧
    geomC.contourArea () ≠ 0 ∧
    classify geomC paramsC4 10 10 grayC maskC = false := by
  refine ⟨⟨⟨?_, ?_⟩, ?_, ⟨?_, ?_⟩, ?_, ?_⟩, by decide, by decide, by decide, ?_⟩
  · rw [maskArea_maskC]; norm_num [paramsC4]
  · rw [maskArea_maskC]; norm_num [paramsC4]
  · rw [boundingRect_maskC]; decide
  · rw [boundingRect_maskC]; norm_num [paramsC4]
  · rw [boundingRect_maskC]; norm_num [paramsC4]
  · simp only [borderHit, boundingRect_maskC]; norm_num [paramsC4]
  · rw [meanGray_grayC_maskC]; norm_num [paramsC4]
  · rw [classify_eq_false_iff]
    rintro ⟨-, -, -, -, -, c, -, -, -, hsol⟩
    apply hsol
    norm_num [geomC, paramsC4]

/-! ### YOLO annotation geometry (C9) -/

/-- The mask grid has exactly the image shape (the source builds `mask_np`
with the image dimensions). -/
abbrev maskWF (imgH imgW : ℕ) (m : Mask) : Prop :=
  m.length = imgH ∧ ∀ row ∈ m, row.length = imgW

/-- Normalized YOLO bounding box geometry. -/
structure YoloGeom where
  xc : ℚ
  yc : ℚ
  wn : ℚ
  hn : ℚ
  deriving DecidableEq

/-- Lines 123-127 of `shared_logic.process_batch`: the bounding box of the
mask, normalized to center/size relative to the image dimensions. -/
def yoloGeom (imgH imgW : ℕ) (m : Mask) : YoloGeom :=
  let r := boundingRect m
  ⟨((r.x : ℚ) + (r.w : ℚ) / 2) / (imgW : ℚ),
   ((r.y : ℚ) + (r.h : ℚ) / 2) / (imgH : ℚ),
   (r.w : ℚ) / (imgW : ℚ),
   (r.h : ℚ) / (imgH : ℚ)⟩

theorem boundingRect_bounds {imgH imgW : ℕ} {m : Mask}
    (hwf : maskWF imgH imgW m) (hne : maskCoords m ≠ []) :
    1 ≤ (boundingRect m).w ∧ 1 ≤ (boundingRect m).h ∧
    (boundingRect m).x + (boundingRect m).w ≤ imgW ∧
    (boundingRect m).y + (boundingRect m).h ≤ imgH := by
  obtain ⟨hlen, hrowlen⟩ := hwf
  have hcls : ((maskCoords m).map Prod.snd) ≠ [] := by
    intro h
    exact hne (List.map_eq_nil_iff.mp h)
  have hrws : ((maskCoords m).map Prod.fst) ≠ [] := by
    intro h
    exact hne (List.map_eq_nil_iff.mp h)
  have hcol : ∀ c ∈ (maskCoords m).map Prod.snd, c < imgW := by
    intro c hc
    rcases List.mem_map.mp hc with ⟨⟨r2, c2⟩, hmem, rfl⟩
    rw [mem_maskCoords] at hmem
    obtain ⟨hr2, hc2, -⟩ := hmem
    have hrmem : m.getD r2 [] ∈ m := by
      rw [List.getD_eq_getElem m [] hr2]
      exact List.getElem_mem hr2
    exact lt_of_lt_of_eq hc2 (hrowlen _ hrmem)
  have hrow : ∀ r2 ∈ (maskCoords m).map Prod.fst, r2 < imgH := by
    intro r2 hr
    rcases List.mem_map.mp hr with ⟨⟨r3, c3⟩, hmem, rfl⟩
    rw [mem_maskCoords] at hmem
    exact lt_of_lt_of_eq hmem.1 hlen
  have hmmc : natMinL ((maskCoords m).map Prod.snd) ≤ natMaxL ((maskCoords m).map Prod.snd) :=
    natMinL_le_of_mem (natMaxL_mem hcls)
  have hmaxc : natMaxL ((maskCoords m).map Prod.snd) < imgW := hcol _ (natMaxL_mem hcls)
  have hmmr : natMinL ((maskCoords m).map Prod.fst) ≤ natMaxL ((maskCoords m).map Prod.fst) :=
    natMinL_le_of_mem (natMaxL_mem hrws)
  have hmaxr : natMaxL ((maskCoords m).map Prod.fst) < imgH := hrow _ (natMaxL_mem hrws)
  rw [boundingRect_eq_of_ne hne]
  dsimp only
  refine ⟨by omega, by omega, by omega, by omega⟩

/-- C9: for every accepted mask (and mask grid of the image shape), the four
normalized values emitted in the annotation record each lie in [0,1], and
multiplying back by the image dimensions reconstructs the bounding box
(x, y, w, h) exactly (the embedding computes with exact rationals, so the
floating-point tolerance of the claim is met with zero error). -/
theorem annotation_roundtrip {C : Type} (geom : Geom C) (p : FilterParams)
    (imgH imgW : ℕ) (gray : List (List ℕ)) (m : Mask)
    (hwf : maskWF imgH imgW m)
    (hacc : classify geom p imgH imgW gray m = true) :
    (0 ≤ (yoloGeom imgH imgW m).xc ∧ (yoloGeom imgH imgW m).xc ≤ 1) ∧
    (0 ≤ (yoloGeom imgH imgW m).yc ∧ (yoloGeom imgH imgW m).yc ≤ 1) ∧
    (0 ≤ (yoloGeom imgH imgW m).wn ∧ (yoloGeom imgH imgW m).wn ≤ 1) ∧
    (0 ≤ (yoloGeom imgH imgW m).hn ∧ (yoloGeom imgH imgW m).hn ≤ 1) ∧
    (yoloGeom imgH imgW m).wn * (imgW : ℚ) = ((boundingRect m).w : ℚ) ∧
    (yoloGeom imgH imgW m).hn * (imgH : ℚ) = ((boundingRect m).h : ℚ) ∧
    ((yoloGeom imgH imgW m).xc - (yoloGeom imgH imgW m).wn / 2) * (imgW : ℚ)
      = ((boundingRect m).x : ℚ) ∧
    ((yoloGeom imgH imgW m).yc - (yoloGeom imgH imgW m).hn / 2) * (imgH : ℚ)
      = ((boundingRect m).y : ℚ) := by
  have hcond := (classify_eq_true_iff geom p imgH imgW gray m).mp hacc
  have hne : maskCoords m ≠ [] := by
    intro h
    exact hcond.2.1 (boundingRect_h_eq_zero_iff.mpr h)
  obtain ⟨hw1, hh1, hxw, hyh⟩ := boundingRect_bounds hwf hne
  have hW : 0 < imgW := by omega
  have hH : 0 < imgH := by omega
  have hWQ : (0 : ℚ) < (imgW : ℚ) := by exact_mod_cast hW
  have hHQ : (0 : ℚ) < (imgH : ℚ) := by exact_mod_cast hH
  have hWne : (imgW : ℚ) ≠ 0 := ne_of_gt hWQ
  have hHne : (imgH : ℚ) ≠ 0 := ne_of_gt hHQ
  have hxwQ : ((boundingRect m).x : ℚ) + ((boundingRect m).w : ℚ) ≤ (imgW : ℚ) := by
    exact_mod_cast hxw
  have hyhQ : ((boundingRect m).y : ℚ) + ((boundingRect m).h : ℚ) ≤ (imgH : ℚ) := by
    exact_mod_cast hyh
  have hx0 : (0 : ℚ) ≤ ((boundingRect m).x : ℚ) := Nat.cast_nonneg _
  have hy0 : (0 : ℚ) ≤ ((boundingRect m).y : ℚ) := Nat.cast_nonneg _
  have hw0 : (0 : ℚ) ≤ ((boundingRect m).w : ℚ) := Nat.cast_nonneg _
  have hh0 : (0 : ℚ) ≤ ((boundingRect m).h : ℚ) := Nat.cast_nonneg _
  simp only [yoloGeom]
  refine ⟨⟨?_, ?_⟩, ⟨?_, ?_⟩, ⟨?_, ?_⟩, ⟨?_, ?_⟩, ?_, ?_, ?_, ?_⟩
  · exact div_nonneg (by linarith) hWQ.le
  · rw [div_le_one hWQ]; linarith
  · exact div_nonneg (by linarith) hHQ.le
  · rw [div_le_one hHQ]; linarith
  · exact div_nonneg hw0 hWQ.le
  · rw [div_le_one hWQ]; linarith
  · exact div_nonneg hh0 hHQ.le
  · rw [div_le_one hHQ]; linarith
  · exact div_mul_cancel₀ _ hWne
  · exact div_mul_cancel₀ _ hHne
  · field_simp
    ring
  · field_simp
    ring

theorem classify_maskC_true : classify geomC paramsC 10 10 grayC maskC = true := by
  rw [classify_eq_true_iff]
  obtain ⟨h1, h2, h3, h4, h5⟩ := preSolidityOk_paramsC_maskC
  refine ⟨h1, h2, h3, h4, h5, (), by decide, by decide, by decide, ?_⟩
  norm_num [geomC, paramsC]

theorem annotation_roundtrip_witness :
    (0 ≤ (yoloGeom 10 10 maskC).xc ∧ (yoloGeom 10 10 maskC).xc ≤ 1) ∧
    (0 ≤ (yoloGeom 10 10 maskC).yc ∧ (yoloGeom 10 10 maskC).yc ≤ 1) ∧
    (0 ≤ (yoloGeom 10 10 maskC).wn ∧ (yoloGeom 10 10 maskC).wn ≤ 1) ∧
    (0 ≤ (yoloGeom 10 10 maskC).hn ∧ (yoloGeom 10 10 maskC).hn ≤ 1) ∧
    (yoloGeom 10 10 maskC).wn * (10 : ℚ) = ((boundingRect maskC).w : ℚ) ∧
    (yoloGeom 10 10 maskC).hn * (10 : ℚ) = ((boundingRect maskC).h : ℚ) ∧
    ((yoloGeom 10 10 maskC).xc - (yoloGeom 10 10 maskC).wn / 2) * (10 : ℚ)
      = ((boundingRect maskC).x : ℚ) ∧
    ((yoloGeom 10 10 maskC).yc - (yoloGeom 10 10 maskC).hn / 2) * (10 : ℚ)
      = ((boundingRect maskC).y : ℚ) := by
  have h := annotation_roundtrip geomC paramsC 10 10 grayC maskC
    ⟨by decide, by decide⟩ classify_maskC_true
  exact_mod_cast h

/-! ### Worker control loop (`worker.start_worker`, lines 113-199)

The loop is modelled one iteration at a time. Each iteration performs one
`get_batch_jobs` poll; the coordinator's response and the per-attempt
outcomes of the `submit_batch_results` call are inputs (`IterInput`).
Per-job processing (`process_image`) is an oracle parameter `proc`,
consulted only through the truthiness of the returned result bytes, exactly
as the source does at lines 148-158. Sleeps record the durations passed to
`time.sleep`. -/

/-- The worker configuration fields the loop reads. -/
structure WorkerCfg where
  retryDelay : ℕ
  deriving DecidableEq

/-- The `status` field of a `get_batch_jobs` response body. -/
inductive BatchStatus
  | newBatch
  | noMoreJobs
  | paused
  | otherStatus
  deriving DecidableEq

/-- One job of a batch, as consumed by the loop body. -/
structure Job where
  taskId : ℕ
  mangaName : String
  filename : String
  imageBytes : List ℕ
  confidence : Option ℚ
  deriving DecidableEq

/-- Outcome of one `get_batch_jobs` call: the version-gate status code 426, a
transport failure or non-2xx code (raised as a `RequestException`), or a
decoded 2xx body. -/
inductive PollResp
  | code426
  | netFail
  | got (status : BatchStatus) (jobs : List Job)

/-- Inputs consumed by one loop iteration: the poll response and, for each
submission attempt `i`, whether that attempt succeeds. -/
structure IterInput where
  resp : PollResp
  submitOk : ℕ → Bool

/-- Reasons the main loop breaks. -/
inductive TermReason
  | versionOutdated
  | finished
  deriving DecidableEq

/-- One entry of the `results_to_submit` payload (lines 149-155). The image
bytes are kept raw; base64 transport encoding is presentation only. -/
structure ResultPayload where
  taskId : ℕ
  mangaName : String
  filename : String
  imageBytes : List ℕ
  txtData : String
  deriving DecidableEq

/-- Lines 136-158: build `results_to_submit` from the per-job
`process_image` results; a job contributes a payload entry iff its result
bytes are truthy (not `None` and not empty). -/
def buildPayloadW (proc : Job → Option (List ℕ) × String) (jobs : List Job) :
    List ResultPayload :=
  jobs.filterMap (fun j =>
    match proc j with
    | (some (b :: bs), txt) => some ⟨j.taskId, j.mangaName, j.filename, b :: bs, txt⟩
    | _ => none)

/-- Result of the submission retry loop. -/
structure SubmitOutcome where
  attempts : ℕ
  success : Bool
  sleeps : List ℕ
  deriving DecidableEq

/-- Lines 161-174: the `for attempt in range(3)` loop around the
`submit_batch_results` POST, unrolled (the bound 3 is a literal in the
source). A failed attempt sleeps 5 and the next attempt, if any, is made;
success breaks out of the loop immediately. -/
def submitBatchResults (ok : ℕ → Bool) : SubmitOutcome :=
  if ok 0 then ⟨1, true, []⟩
  else if ok 1 then ⟨2, true, [5]⟩
  else if ok 2 then ⟨3, true, [5, 5]⟩
  else ⟨3, false, [5, 5, 5]⟩

/-- Observable outcome of one main-loop iteration. -/
structure IterResult where
  termin : Option TermReason
  sleeps : List ℕ
  submitAttempts : ℕ
  delivered : List ResultPayload
  deriving DecidableEq

/-- One iteration of the `while True` loop (lines 113-199) after a completed
`get_batch_jobs` call: the 426 version gate breaks the loop; a request
failure sleeps `WORKER_RETRY_DELAY` and continues; a `new_batch` with a
nonempty job list is processed and its nonempty payload submitted with
bounded retries; `no_more_jobs` breaks; `paused` sleeps the retry delay; any
other status sleeps 5. `delivered` is what the coordinator received. -/
def loopIter (cfg : WorkerCfg) (proc : Job → Option (List ℕ) × String)
    (inp : IterInput) : IterResult :=
  match inp.resp with
  | .code426 => ⟨some .versionOutdated, [], 0, []⟩
  | .netFail => ⟨none, [cfg.retryDelay], 0, []⟩
  | .got s jobs =>
    if s = .newBatch ∧ jobs ≠ [] then
      let payload := buildPayloadW proc jobs
      if payload ≠ [] then
        let r := submitBatchResults inp.submitOk
        ⟨none, r.sleeps, r.attempts, if r.success then payload else []⟩
      else ⟨none, [], 0, []⟩
    else if s = .noMoreJobs then ⟨some .finished, [], 0, []⟩
    else if s = .paused then ⟨none, [cfg.retryDelay], 0, []⟩
    else ⟨none, [5], 0, []⟩

/-- Outcome of running the loop over a list of poll responses. -/
structure RunResult where
  polls : ℕ
  termin : Option TermReason
  deriving DecidableEq

/-- Run the main loop over a list of iteration inputs, stopping at the first
iteration that breaks. `polls` counts the `get_batch_jobs` calls made. -/
def runWorker (cfg : WorkerCfg) (proc : Job → Option (List ℕ) × String) :
    List IterInput → RunResult
  | [] => ⟨0, none⟩
  | inp :: rest =>
    let r := loopIter cfg proc inp
    match r.termin with
    | some t => ⟨1, some t⟩
    | none =>
      let rr := runWorker cfg proc rest
      ⟨rr.polls + 1, rr.termin⟩

/-! ### Claims about the worker control loop -/

/-- Per-job processing oracle used by witnesses: every job yields one
nonempty result. -/
def procW : Job → Option (List ℕ) × String := fun _ => (some [1], "")

/-- A concrete job. -/
def jobW : Job := ⟨1, "m", "f", [0], none⟩

/-- A submission oracle whose every attempt succeeds. -/
def alwaysOkSubmit : ℕ → Bool := fun _ => true

/-- A submission oracle whose every attempt fails. -/
def neverOkSubmit : ℕ → Bool := fun _ => false

/-- C6: if every iteration before some poll leaves the loop running and that
poll returns the version-rejection code 426, the run makes exactly
`pre.length + 1` polls and ends in the terminal `versionOutdated` state: the
input tail after the 426 response is never consumed, i.e. the endpoint is
never polled again, regardless of how many batches preceded. -/
theorem version_gate_terminal (cfg : WorkerCfg) (proc : Job → Option (List ℕ) × String)
    (pre rest : List IterInput) (f : ℕ → Bool)
    (hpre : ∀ inp ∈ pre, (loopIter cfg proc inp).termin = none) :
    runWorker cfg proc (pre ++ ⟨.code426, f⟩ :: rest) =
      ⟨pre.length + 1, some .versionOutdated⟩ := by
  induction pre with
  | nil => simp [runWorker, loopIter]
  | cons a t ih =>
    have ha := hpre a (List.mem_cons_self a t)
    have ht := ih (fun inp hi => hpre inp (List.mem_cons_of_mem a hi))
    have hstep : (a :: t) ++ (⟨.code426, f⟩ : IterInput) :: rest =
        a :: (t ++ (⟨.code426, f⟩ : IterInput) :: rest) := rfl
    rw [hstep]
    simp only [runWorker, ha]
    rw [ht]
    simp

theorem version_gate_terminal_witness :
    runWorker ⟨15⟩ procW
      ([⟨.got .newBatch [jobW], alwaysOkSubmit⟩] ++
        (⟨.code426, alwaysOkSubmit⟩ : IterInput) ::
        [⟨.got .newBatch [jobW], alwaysOkSubmit⟩]) =
      ⟨2, some .versionOutdated⟩ :=
  version_gate_terminal ⟨15⟩ procW _ _ alwaysOkSubmit (by decide)

/-- C7: a submission is attempted at most 3 times; when three consecutive
attempts fail, exactly 3 attempts are made (no 4th), each failure is
followed by the fixed 5-unit delay, the batch results are dropped (nothing
is delivered), the loop does not terminate, and the worker proceeds to
request the next batch (the rest of the input stream is consumed as if the
failed iteration had succeeded). -/
theorem submission_retry_bounded (cfg : WorkerCfg) (proc : Job → Option (List ℕ) × String)
    (ok : ℕ → Bool) (jobs : List Job) (rest : List IterInput)
    (hjobs : jobs ≠ []) (hpay : buildPayloadW proc jobs ≠ [])
    (h0 : ok 0 = false) (h1 : ok 1 = false) (h2 : ok 2 = false) :
    (∀ g : ℕ → Bool, (submitBatchResults g).attempts ≤ 3) ∧
    submitBatchResults ok = ⟨3, false, [5, 5, 5]⟩ ∧
    loopIter cfg proc ⟨.got .newBatch jobs, ok⟩ = ⟨none, [5, 5, 5], 3, []⟩ ∧
    runWorker cfg proc (⟨.got .newBatch jobs, ok⟩ :: rest) =
      ⟨(runWorker cfg proc rest).polls + 1, (runWorker cfg proc rest).termin⟩ := by
  have hs : submitBatchResults ok = ⟨3, false, [5, 5, 5]⟩ := by
    simp [submitBatchResults, h0, h1, h2]
  have hiter : loopIter cfg proc ⟨.got .newBatch jobs, ok⟩ = ⟨none, [5, 5, 5], 3, []⟩ := by
    simp [loopIter, hs, hpay, hjobs]
  refine ⟨?_, hs, hiter, ?_⟩
  · intro g
    unfold submitBatchResults
    split_ifs <;> simp
  · simp only [runWorker, hiter]

theorem submission_retry_bounded_witness :
    (∀ g : ℕ → Bool, (submitBatchResults g).attempts ≤ 3) ∧
    submitBatchResults neverOkSubmit = ⟨3, false, [5, 5, 5]⟩ ∧
    loopIter ⟨15⟩ procW ⟨.got .newBatch [jobW], neverOkSubmit⟩ = ⟨none, [5, 5, 5], 3, []⟩ ∧
    runWorker ⟨15⟩ procW (⟨.got .newBatch [jobW], neverOkSubmit⟩ :: []) =
      ⟨(runWorker ⟨15⟩ procW []).polls + 1, (runWorker ⟨15⟩ procW []).termin⟩ :=
  submission_retry_bounded ⟨15⟩ procW neverOkSubmit [jobW] []
    (by decide) (by decide) rfl rfl rfl

/-- C8 (amended): once in the main loop, no network-call failure terminates
the worker — an iteration terminates only on the 426 version gate or a
`no_more_jobs` status; a failed `get_batch_jobs` call sleeps exactly the
configured retry delay and leaves the loop running, and any number of
consecutive such failures is survived (the poll is retried indefinitely);
submission failures also never terminate the loop, but they follow the
bounded policy of the submission retry loop (at most 3 attempts with a fixed
5-unit delay) rather than sleeping the configured delay indefinitely. -/
theorem transient_failures_nonfatal (cfg : WorkerCfg)
    (proc : Job → Option (List ℕ) × String) :
    (∀ inp t, (loopIter cfg proc inp).termin = some t →
      inp.resp = PollResp.code426 ∨ ∃ jobs, inp.resp = PollResp.got .noMoreJobs jobs) ∧
    (∀ f : ℕ → Bool, loopIter cfg proc ⟨.netFail, f⟩ = ⟨none, [cfg.retryDelay], 0, []⟩) ∧
    (∀ jobs (ok : ℕ → Bool), (loopIter cfg proc ⟨.got .newBatch jobs, ok⟩).termin = none) ∧
    (∀ n (f : ℕ → Bool),
      runWorker cfg proc (List.replicate n ⟨.netFail, f⟩) = ⟨n, none⟩) := by
  refine ⟨?_, fun f => rfl, ?_, ?_⟩
  · rintro ⟨resp, ok⟩ t h
    cases resp with
    | code426 => exact Or.inl rfl
    | netFail => exact absurd h (by simp [loopIter])
    | got s jobs =>
      by_cases hs3 : s = BatchStatus.noMoreJobs
      · exact Or.inr ⟨jobs, by rw [hs3]⟩
      · exfalso
        simp only [loopIter] at h
        split_ifs at h

  · intro jobs ok
    simp only [loopIter]
    split_ifs <;> simp_all
  · intro n f
    induction n with
    | zero => rfl
    | succ k ih =>
      simp [List.replicate_succ, runWorker, loopIter, ih]

theorem transient_failures_nonfatal_witness :
    (⟨.netFail, alwaysOkSubmit⟩ : IterInput).resp = PollResp.code426 ∨
    ∃ jobs, (⟨.netFail, alwaysOkSubmit⟩ : IterInput).resp = PollResp.got .noMoreJobs jobs ∨
    loopIter ⟨15⟩ procW ⟨.netFail, alwaysOkSubmit⟩ = ⟨none, [15], 0, []⟩ := by
  exact Or.inr ⟨[], Or.inr ((transient_failures_nonfatal ⟨15⟩ procW).2.1 alwaysOkSubmit)⟩

/-- C8 counterexample: with configured retry delay 15, an iteration whose
three submission attempts all fail (three consecutive network-call failures
while in the main loop) sleeps 5 units after each failed attempt — never the
configured delay — and makes exactly 3 attempts before the worker moves on,
refuting the claim that every network-call failure results in sleeping a
configured retry delay and retrying the same operation indefinitely. -/
theorem transient_failures_cex :
    loopIter ⟨15⟩ procW ⟨.got .newBatch [jobW], neverOkSubmit⟩ =
      ⟨none, [5, 5, 5], 3, []⟩ ∧
    (⟨15⟩ : WorkerCfg).retryDelay = 15 ∧ (5 : ℕ) ≠ 15 := by
  refine ⟨by decide, rfl, by decide⟩

/-! ### Batch processing (`shared_logic.process_batch`, lines 89-135) -/

/-- A decoded image as consumed by the processing pipeline: its shape and
the grayscale view the classifier reads. -/
structure WorkImage where
  height : ℕ
  width : ℕ
  gray : List (List ℕ)
  deriving DecidableEq

/-- One line of a YOLO annotation block: the class id and the normalized
geometry. The textual 6-decimal rendering of lines 128-130 is presentation
only; the record content is kept exactly. -/
abbrev YoloLine := ℕ × YoloGeom

/-- One entry of the `results` list of `process_batch`: `(None, None)` for a
failed decode, otherwise the encoded overlay bytes and the annotation block. -/
abbrev BatchEntry := Option (List ℕ) × Option (List YoloLine)

/-- External collaborators of `process_batch`: the classifier geometry,
`cv2.imdecode`, the SAM segmentation call (image and per-task confidence in,
masks out), and the overlay rendering plus `cv2.imencode` pipeline of lines
107-116 (result bytes of the diagnostic image). -/
structure BatchEnv (C : Type) where
  geom : Geom C
  decode : List ℕ → Option WorkImage
  sam : WorkImage → Option ℚ → List Mask
  renderDiag : WorkImage → List Mask → List ℕ

/-- The worker configuration fields `process_batch` reads. -/
structure BatchCfg where
  fp : FilterParams
  genYolo : Bool
  yoloClassId : ℕ

/-- `shared_logic.find_speech_balloons` (lines 71-87): keep exactly the masks
the classifier accepts, in their original order. -/
def find_speech_balloons {C : Type} (geom : Geom C) (masks : List Mask)
    (img : WorkImage) (p : FilterParams) : List Mask :=
  masks.filter (fun m => classify geom p img.height img.width img.gray m)

/-- Lines 118-131: the YOLO annotation block of the accepted masks — one line
per accepted mask in detection order when generation is enabled and at least
one mask was accepted, empty otherwise. -/
def yoloBlock (cfg : BatchCfg) (img : WorkImage) (balloons : List Mask) :
    List YoloLine :=
  if cfg.genYolo ∧ balloons ≠ [] then
    balloons.map (fun m => (cfg.yoloClassId, yoloGeom img.height img.width m))
  else []

/-- The loop body of `process_batch` (lines 100-133) on a successfully
decoded image: segment, filter to balloons, render the overlay, build the
annotation block. -/
def processOne {C : Type} (env : BatchEnv C) (cfg : BatchCfg) (img : WorkImage)
    (conf : Option ℚ) : BatchEntry :=
  let balloons := find_speech_balloons env.geom (env.sam img conf) img cfg.fp
  (some (env.renderDiag img balloons), some (yoloBlock cfg img balloons))

/-- `shared_logic.process_batch` (lines 89-135): decode each image in order;
a decode failure appends the `(None, None)` placeholder and continues with
the next task; a success reads `confidence_list[i]` and appends the
processed pair. Reading a missing confidence index raises an uncaught
exception (the call aborts), modelled as `none`. -/
def process_batch {C : Type} (env : BatchEnv C) (cfg : BatchCfg) :
    List (List ℕ) → List (Option ℚ) → Option (List BatchEntry)
  | [], _ => some []
  | b :: bs, confs =>
    match env.decode b with
    | none => (process_batch env cfg bs confs.tail).map (fun r => (none, none) :: r)
    | some img =>
      match confs with
      | [] => none
      | conf :: cs =>
        (process_batch env cfg bs cs).map (fun r => processOne env cfg img conf :: r)

/-- The truthiness test `if result_bytes:` of worker line 148 on one batch
entry: `None` and empty bytes are falsy. -/
def truthyResult (e : BatchEntry) : Bool :=
  match e.1 with
  | some (_ :: _) => true
  | _ => false

/-- Worker lines 148-158 at batch granularity: the submitted results payload
keeps exactly the entries with truthy result bytes, in order; the other
tasks are reported only by their absence. -/
def submitEntries (l : List BatchEntry) : List (List ℕ × List YoloLine) :=
  l.filterMap (fun e =>
    match e.1 with
    | some (b :: bs) => some (b :: bs, e.2.getD [])
    | _ => none)

theorem process_batch_spec {C : Type} (env : BatchEnv C) (cfg : BatchCfg)
    (imgs : List (List ℕ)) (confs : List (Option ℚ))
    (hlen : confs.length = imgs.length) :
    ∃ l, process_batch env cfg imgs confs = some l ∧
      l.length = imgs.length ∧
      ∀ i, i < imgs.length →
        l.getD i (none, none) =
          (match env.decode (imgs.getD i []) with
           | none => (none, none)
           | some img => processOne env cfg img (confs.getD i none)) := by
  induction imgs generalizing confs with
  | nil => exact ⟨[], rfl, rfl, fun i hi => absurd hi (by simp)⟩
  | cons b bs ih =>
    cases confs with
    | nil => simp at hlen
    | cons conf cs =>
      have hlen2 : cs.length = bs.length := by simpa using hlen
      obtain ⟨l, hl, hlenl, hpos⟩ := ih cs hlen2
      cases hdec : env.decode b with
      | none =>
        refine ⟨(none, none) :: l, ?_, by simp [hlenl], ?_⟩
        · simp [process_batch, hdec, hl]
        · intro i hi
          cases i with
          | zero => simp [hdec]
          | succ j =>
            have hj : j < bs.length := by simpa using hi
            simpa using hpos j hj
      | some img =>
        refine ⟨processOne env cfg img conf :: l, ?_, by simp [hlenl], ?_⟩
        · simp [process_batch, hdec, hl]
        · intro i hi
          cases i with
          | zero => simp [hdec]
          | succ j =>
            have hj : j < bs.length := by simpa using hi
            simpa using hpos j hj

theorem submitEntries_length (l : List BatchEntry) :
    (submitEntries l).length = l.countP truthyResult := by
  induction l with
  | nil => rfl
  | cons e t ih =>
    have hunf : submitEntries (e :: t) =
        (match e.1 with
          | some (b :: bs) => some (b :: bs, e.2.getD [])
          | _ => none).toList ++ submitEntries t := by
      rcases e with ⟨ob, otxt⟩
      rcases ob with _ | bs
      · simp [submitEntries]
      · rcases bs with _ | ⟨b, bs2⟩
        · simp [submitEntries]
        · simp [submitEntries]
    rw [hunf, List.length_append, List.countP_cons, ih]
    rcases e with ⟨ob, otxt⟩
    rcases ob with _ | bs
    · simp [truthyResult]
    · rcases bs with _ | ⟨b, bs2⟩
      · simp [truthyResult]
      · simp [truthyResult, Nat.add_comm]

theorem submitEntries_nonempty_bytes (l : List BatchEntry) :
    ∀ x ∈ submitEntries l, x.1 ≠ [] := by
  intro x hx
  rcases List.mem_filterMap.mp hx with ⟨e, hmem, hfe⟩
  rcases e with ⟨ob, otxt⟩
  rcases ob with _ | bs
  · simp at hfe
  · rcases bs with _ | ⟨b, bs2⟩
    · simp at hfe
    · simp only [Option.some.injEq] at hfe
      rw [← hfe]
      simp

/-- C10: when a confidence is supplied for every task, `process_batch`
returns a list of exactly the length of its input, and the entry at each
position is determined by the input image at that position — the
`(None, None)` placeholder when that image fails to decode, the processed
pair otherwise — so input order is preserved and failures occupy their
position instead of being omitted. -/
theorem process_batch_preserves_order {C : Type} (env : BatchEnv C) (cfg : BatchCfg)
    (imgs : List (List ℕ)) (confs : List (Option ℚ))
    (hlen : confs.length = imgs.length) :
    ∃ l, process_batch env cfg imgs confs = some l ∧
      l.length = imgs.length ∧
      ∀ i, i < imgs.length →
        l.getD i (none, none) =
          (match env.decode (imgs.getD i []) with
           | none => (none, none)
           | some img => processOne env cfg img (confs.getD i none)) :=
  process_batch_spec env cfg imgs confs hlen

/-- Trivial image: one gray pixel. -/
def imgC5 : WorkImage := ⟨1, 1, [[200]]⟩

/-- Decode oracle for the batch witnesses: the byte string `[0]` is
undecodable (malformed bytes), anything else decodes to `imgC5`;
segmentation finds no masks and the overlay encodes to the single byte 9. -/
def envC5 : BatchEnv Unit :=
  ⟨geomC, fun b => if b = [0] then none else some imgC5, fun _ _ => [], fun _ _ => [9]⟩

/-- A batch configuration with annotation generation enabled. -/
def cfgC5 : BatchCfg := ⟨paramsC, true, 0⟩

theorem process_batch_preserves_order_witness :
    ∃ l, process_batch envC5 cfgC5 [[1], [2]] [none, none] = some l ∧
      l.length = ([[1], [2]] : List (List ℕ)).length ∧
      ∀ i, i < ([[1], [2]] : List (List ℕ)).length →
        l.getD i (none, none) =
          (match envC5.decode (([[1], [2]] : List (List ℕ)).getD i []) with
           | none => (none, none)
           | some img => processOne envC5 cfgC5 img (([none, none] : List (Option ℚ)).getD i none)) :=
  process_batch_preserves_order envC5 cfgC5 [[1], [2]] [none, none] (by decide)

/-- C5: with per-task confidences supplied, `process_batch` never aborts on
an undecodable image: that one task gets the null `(None, None)` placeholder
while every other task is still processed, and the submitted results payload
contains exactly the truthy entries — failed tasks are absent from it
(every submitted entry has nonempty result bytes) rather than aborting the
batch. -/
theorem decode_failure_isolated {C : Type} (env : BatchEnv C) (cfg : BatchCfg)
    (imgs : List (List ℕ)) (confs : List (Option ℚ))
    (hlen : confs.length = imgs.length) :
    ∃ l, process_batch env cfg imgs confs = some l ∧
      l.length = imgs.length ∧
      (∀ i, i < imgs.length → env.decode (imgs.getD i []) = none →
        l.getD i (none, none) = (none, none)) ∧
      (∀ i img, i < imgs.length → env.decode (imgs.getD i []) = some img →
        l.getD i (none, none) = processOne env cfg img (confs.getD i none)) ∧
      (∀ x ∈ submitEntries l, x.1 ≠ []) ∧
      (submitEntries l).length = l.countP truthyResult := by
  obtain ⟨l, hl, hlenl, hpos⟩ := process_batch_spec env cfg imgs confs hlen
  refine ⟨l, hl, hlenl, ?_, ?_, submitEntries_nonempty_bytes l, submitEntries_length l⟩
  · intro i hi hdec
    rw [hpos i hi, hdec]
  · intro i img hi hdec
    rw [hpos i hi, hdec]

theorem decode_failure_isolated_witness :
    envC5.decode [0] = none ∧
    (process_batch envC5 cfgC5 [[0], [1], [2]] [none, none, none]).map
      (fun l => ((submitEntries l).length, l.length)) = some (2, 3) ∧
    (∃ l, process_batch envC5 cfgC5 [[0], [1], [2]] [none, none, none] = some l ∧
      l.length = 3 ∧
      (∀ i, i < 3 → envC5.decode (([[0], [1], [2]] : List (List ℕ)).getD i []) = none →
        l.getD i (none, none) = (none, none)) ∧
      (∀ i img, i < 3 →
        envC5.decode (([[0], [1], [2]] : List (List ℕ)).getD i []) = some img →
        l.getD i (none, none) =
          processOne envC5 cfgC5 img (([none, none, none] : List (Option ℚ)).getD i none)) ∧
      (∀ x ∈ submitEntries l, x.1 ≠ []) ∧
      (submitEntries l).length = l.countP truthyResult) :=
  ⟨by decide, by decide,
    decode_failure_isolated envC5 cfgC5 [[0], [1], [2]] [none, none, none] (by decide)⟩

end BalloonWorker
